import Mathlib

/-!
Verification of the vendoring tool (`partial.py`-style single-file pipeline):
shallow embedding of its pure decision logic and proofs about the behaviour
its specification describes.

Modelling conventions:
* Python strings are Lean `String` / `List Char`; paths are `List String`
  (the sequence of path components, Python `Path.parts`).
* Fallible Python code (uncaught exceptions) is embedded as `Except PyError`.
* Network responses are input data: the embedding takes the decoded response
  of each endpoint as an argument and models the control flow on it.
-/

namespace VendorTool

/-- Python exception outcomes relevant to the embedded code paths. -/
inductive PyError where
  /-- Python `IndexError`, e.g. `tags[-1]` on an empty list or `tag[0]` on an
  empty string. -/
  | indexError
  /-- An uncaught network-layer error (anything that is not
  `urllib.error.HTTPError`, e.g. `urllib.error.URLError`). -/
  | urlError (msg : String)
  deriving DecidableEq

/-! ## Version resolver (`latest_release_tag`) -/

/-- Accumulator step for extracting maximal digit runs: models Python
`re.findall` of one-or-more digits over the string followed by `int` on each
run (digits are ASCII `0`-`9`). `acc` is the value of the digit run currently
being read, if any. -/
def digitRunsAux : List Char → Option Nat → List Nat
  | [], none => []
  | [], some n => [n]
  | c :: cs, acc =>
    if c.isDigit then
      digitRunsAux cs (some (acc.getD 0 * 10 + (c.toNat - 48)))
    else
      match acc with
      | none => digitRunsAux cs none
      | some n => n :: digitRunsAux cs none

/-- The sequence of integers obtained from the maximal digit runs of a string:
the sort key `tuple(map(int, re.findall(..., v)))` used by the tag fallback. -/
def digitRuns (s : String) : List Nat :=
  digitRunsAux s.data none

/-- Python tuple comparison `a <= b` on integer tuples: lexicographic, a
strict prefix is smaller. -/
def tupleLe : List Nat → List Nat → Bool
  | [], _ => true
  | _ :: _, [] => false
  | a :: as, b :: bs =>
    if a < b then true
    else if b < a then false
    else tupleLe as bs

/-- The comparison used by `tags.sort(key=...)`: compare the digit-run keys. -/
def tagLe (a b : String) : Bool :=
  tupleLe (digitRuns a) (digitRuns b)

/-- Stable insertion into an ascending-sorted list: the inserted element goes
before the first element it compares `le` to. -/
def insertLe (le : α → α → Bool) (x : α) : List α → List α
  | [] => [x]
  | y :: ys => if le x y then x :: y :: ys else y :: insertLe le x ys

/-- Stable ascending sort (extensionally the behaviour of Python
`list.sort`, which is a stable ascending sort). -/
def sortLe (le : α → α → Bool) : List α → List α
  | [] => []
  | x :: xs => insertLe le x (sortLe le xs)

/-- The tag-listing fallback path of `latest_release_tag`: sort the tag names
by their digit-run key and take the last (`tags[-1]`, an `IndexError` when the
list is empty). -/
def fallbackTag (tags : List String) : Except PyError String :=
  match (sortLe tagLe tags).getLast? with
  | some t => Except.ok t
  | none => Except.error PyError.indexError

/-- Decoded outcome of querying the latest-release endpoint. -/
inductive ReleaseResponse where
  /-- The endpoint answered with a release object; the field `tag_name`. -/
  | success (tag_name : String)
  /-- The request failed with an HTTP protocol error of the given status code
  (Python raises `urllib.error.HTTPError`; 404 is the "no releases" case). -/
  | httpError (code : Nat)
  /-- The request failed with any other error (not an `HTTPError`). -/
  | otherError (msg : String)
  deriving DecidableEq

/-- `latest_release_tag`, embedded over the decoded response of the
latest-release endpoint and the decoded tag list of the tag-listing endpoint:
return the release's `tag_name`; on `HTTPError` fall back to the sorted tag
list; let any other error propagate. -/
def latest_release_tag (resp : ReleaseResponse) (tags : List String) :
    Except PyError String :=
  match resp with
  | ReleaseResponse.success t => Except.ok t
  | ReleaseResponse.httpError _ => fallbackTag tags
  | ReleaseResponse.otherError m => Except.error (PyError.urlError m)

/-! ### Order facts about `tupleLe` -/

theorem tupleLe_refl (a : List Nat) : tupleLe a a = true := by
  induction a with
  | nil => rfl
  | cons x xs ih => simp [tupleLe, ih]

theorem tupleLe_total (a b : List Nat) : tupleLe a b || tupleLe b a := by
  induction a generalizing b with
  | nil => simp [tupleLe]
  | cons x xs ih =>
    cases b with
    | nil => simp [tupleLe]
    | cons y ys =>
      by_cases hxy : x < y
      · simp [tupleLe, hxy]
      · by_cases hyx : y < x
        · simp [tupleLe, hxy, hyx]
        · simpa [tupleLe, hxy, hyx] using ih ys

theorem tupleLe_trans (a b c : List Nat) (hab : tupleLe a b = true)
    (hbc : tupleLe b c = true) : tupleLe a c = true := by
  induction a generalizing b c with
  | nil => simp [tupleLe]
  | cons x xs ih =>
    cases b with
    | nil => simp [tupleLe] at hab
    | cons y ys =>
      cases c with
      | nil => simp [tupleLe] at hbc
      | cons z zs =>
        simp only [tupleLe] at hab hbc ⊢
        by_cases hxy : x < y <;> by_cases hyz : y < z
        · simp [show x < z from hxy.trans hyz]
        · simp only [hyz, if_false] at hbc
          by_cases hzy : z < y
          · simp [hzy] at hbc
          · have hyz2 : y = z := Nat.le_antisymm (Nat.le_of_not_lt hzy) (Nat.le_of_not_lt hyz)
            simp [hyz2 ▸ hxy]
        · simp only [hxy, if_false] at hab
          by_cases hyx : y < x
          · simp [hyx] at hab
          · have hxy2 : x = y := Nat.le_antisymm (Nat.le_of_not_lt hyx) (Nat.le_of_not_lt hxy)
            simp [hxy2 ▸ hyz]
        · simp only [hxy, if_false] at hab
          simp only [hyz, if_false] at hbc
          by_cases hyx : y < x
          · simp [hyx] at hab
          · by_cases hzy : z < y
            · simp [hzy] at hbc
            · have hxy2 : x = y := Nat.le_antisymm (Nat.le_of_not_lt hyx) (Nat.le_of_not_lt hxy)
              have hyz2 : y = z := Nat.le_antisymm (Nat.le_of_not_lt hzy) (Nat.le_of_not_lt hyz)
              subst hxy2; subst hyz2
              simp only [Nat.lt_irrefl, if_false] at hab hbc ⊢
              exact ih ys zs hab hbc

/-! ### Sorting facts -/

theorem mem_insertLe (le : α → α → Bool) (x a : α) (l : List α) :
    a ∈ insertLe le x l ↔ a = x ∨ a ∈ l := by
  induction l with
  | nil => simp [insertLe]
  | cons y ys ih =>
    by_cases h : le x y = true
    · rw [insertLe, if_pos h]
      simp only [List.mem_cons]
    · rw [insertLe, if_neg h]
      simp only [List.mem_cons, ih]
      tauto

theorem mem_sortLe (le : α → α → Bool) (a : α) (l : List α) :
    a ∈ sortLe le l ↔ a ∈ l := by
  induction l with
  | nil => simp [sortLe]
  | cons x xs ih => simp [sortLe, mem_insertLe, ih, List.mem_cons]

theorem insertLe_ne_nil (le : α → α → Bool) (x : α) (l : List α) :
    insertLe le x l ≠ [] := by
  cases l with
  | nil => simp [insertLe]
  | cons y ys =>
    by_cases h : le x y = true <;> simp [insertLe, h]

theorem pairwise_insertLe (le : α → α → Bool)
    (total : ∀ a b, le a b || le b a)
    (trans : ∀ a b c, le a b = true → le b c = true → le a c = true)
    (x : α) (l : List α) (h : l.Pairwise (le · ·)) :
    (insertLe le x l).Pairwise (le · ·) := by
  induction l with
  | nil => simp [insertLe]
  | cons y ys ih =>
    rcases List.pairwise_cons.mp h with ⟨hy, hys⟩
    by_cases hxy : le x y = true
    · rw [insertLe, if_pos hxy]
      refine List.pairwise_cons.mpr ⟨?_, h⟩
      intro b hb
      rcases List.mem_cons.mp hb with hb | hb
      · exact hb ▸ hxy
      · exact trans x y b hxy (hy b hb)
    · rw [insertLe, if_neg hxy]
      refine List.pairwise_cons.mpr ⟨?_, ih hys⟩
      intro b hb
      rcases (mem_insertLe le x b ys).mp hb with hb2 | hb2
      · rw [hb2]
        rcases Bool.or_eq_true_iff.mp (total x y) with h1 | h1
        · exact absurd h1 hxy
        · exact h1
      · exact hy b hb2

theorem pairwise_sortLe (le : α → α → Bool)
    (total : ∀ a b, le a b || le b a)
    (trans : ∀ a b c, le a b = true → le b c = true → le a c = true)
    (l : List α) : (sortLe le l).Pairwise (le · ·) := by
  induction l with
  | nil => simp [sortLe]
  | cons x xs ih => exact pairwise_insertLe le total trans x (sortLe le xs) ih

theorem pairwise_le_getLast {R : α → α → Prop} (hrefl : ∀ a, R a a) :
    ∀ (l : List α) (h : l ≠ []), l.Pairwise R → ∀ x ∈ l, R x (l.getLast h)
  | [], h, _, _, _ => absurd rfl h
  | [a], _, _, x, hx => by
    have hx2 : x = a := by simpa using hx
    rw [hx2]
    exact hrefl a
  | a :: b :: t, _, hp, x, hx => by
    rcases List.pairwise_cons.mp hp with ⟨ha, hrest⟩
    rw [List.getLast_cons (by simp)]
    rcases List.mem_cons.mp hx with hx | hx
    · subst hx
      exact ha _ (List.getLast_mem (by simp))
    · exact pairwise_le_getLast hrefl (b :: t) (by simp) hrest x hx

/-- Core correctness of the fallback path: on a non-empty tag list it returns
a tag of the list whose digit-run key is lexicographically greatest. -/
theorem fallbackTag_spec (tags : List String) (h : tags ≠ []) :
    ∃ t, fallbackTag tags = Except.ok t ∧ t ∈ tags ∧
      ∀ u ∈ tags, tupleLe (digitRuns u) (digitRuns t) = true := by
  have htotal : ∀ a b, tagLe a b || tagLe b a := fun a b =>
    tupleLe_total (digitRuns a) (digitRuns b)
  have htrans : ∀ a b c, tagLe a b = true → tagLe b c = true → tagLe a c = true :=
    fun a b c => tupleLe_trans (digitRuns a) (digitRuns b) (digitRuns c)
  have hne : sortLe tagLe tags ≠ [] := by
    cases tags with
    | nil => exact absurd rfl h
    | cons x xs => exact insertLe_ne_nil tagLe x (sortLe tagLe xs)
  have hlast := List.getLast?_eq_getLast (sortLe tagLe tags) hne
  refine ⟨(sortLe tagLe tags).getLast hne, ?_, ?_, ?_⟩
  · simp [fallbackTag, hlast]
  · exact (mem_sortLe tagLe _ tags).mp (List.getLast_mem hne)
  · intro u hu
    have hu2 : u ∈ sortLe tagLe tags := (mem_sortLe tagLe u tags).mpr hu
    have hp := pairwise_sortLe tagLe htotal htrans tags
    have hrefl : ∀ a : String, tagLe a a = true := fun a => tupleLe_refl (digitRuns a)
    exact pairwise_le_getLast hrefl (sortLe tagLe tags) hne hp u hu2

/-! ## File copier (`copy_files`) -/

/-- A filesystem path as its sequence of components (Python `Path.parts`). -/
abbrev FsPath := List String

/-- One glob match: the matched path and whether it is a regular file
(Python `Path.is_file()`). The embedding takes the matches of all patterns,
in pattern order, as input data. -/
structure GlobEntry where
  path : FsPath
  isFile : Bool
  deriving DecidableEq

/-- Python `fsrc.relative_to(src)` for a path lying under `src`: drop the
leading source-root components. In the source every path handed to
`relative_to` comes from `src.glob(...)`, so it always lies under `src`. -/
def relative_to (src p : FsPath) : FsPath := p.drop src.length

/-- Destination path of one copied file: `fdest = fsrc.relative_to(src)`,
then `fdest = dest / fdest` only when a destination root was given. -/
def destFor (dest : Option FsPath) (src fsrc : FsPath) : FsPath :=
  match dest with
  | none => relative_to src fsrc
  | some d => d ++ relative_to src fsrc

/-- The list of destination paths written by the copy loop of `copy_files`:
all glob matches with non-regular-file matches skipped, each mapped to its
destination path. -/
def copyFilesPaths (src : FsPath) (ms : List GlobEntry)
    (dest : Option FsPath) : List FsPath :=
  (ms.filter (fun e => e.isFile)).map (fun e => destFor dest src e.path)

/-- Result of `copy_files`: the written paths, or the `assert files` failure
when nothing was copied. -/
def copyFilesResult (src : FsPath) (ms : List GlobEntry)
    (dest : Option FsPath) : Except String (List FsPath) :=
  if copyFilesPaths src ms dest = [] then
    Except.error ("No files copied!")
  else
    Except.ok (copyFilesPaths src ms dest)

/-- Top-level component of a matched path (Python `Path(f.parts[0])`). -/
def topComponent (f : FsPath) : String := f.headD ""

/-- The distinct top-level components of the current-directory glob matches:
the paths removed by the pre-clean step when `delete` is requested and no
destination root is given (Python `set(Path(f.parts[0]) for f in files)`). -/
def deleteTops (cwdMatches : List FsPath) : List String :=
  (cwdMatches.map topComponent).dedup

/-- Effect of the pre-clean removals on the top-level names of the current
directory: each computed top component is removed in turn (`unlink` for a
file, `rmtree` for a directory — either way the name is gone). -/
def preCleanTopLevel (cwdTops : List String) (cwdMatches : List FsPath) :
    List String :=
  (deleteTops cwdMatches).foldl (fun acc t => acc.filter (fun x => x ≠ t)) cwdTops

theorem mem_foldl_filter_ne [DecidableEq α] (x : α) :
    ∀ (ts acc : List α),
      x ∈ ts.foldl (fun acc t => acc.filter (fun y => y ≠ t)) acc ↔
        x ∈ acc ∧ x ∉ ts
  | [], acc => by simp
  | t :: ts, acc => by
    rw [List.foldl_cons, mem_foldl_filter_ne x ts]
    simp only [List.mem_filter, List.mem_cons, decide_eq_true_eq]
    tauto

/-! ## Text normalization in the copy loop of `copy_files` -/

/-- Python universal-newline translation performed by opening a text file
with `newline=None`: a `"\r\n"` pair and a lone `"\r"` are both read as
`"\n"` (undecodable bytes are replaced before this step and play no role in
line structure). -/
def translateNewlines : List Char → List Char
  | [] => []
  | '\r' :: '\n' :: rest => '\n' :: translateNewlines rest
  | '\r' :: rest => '\n' :: translateNewlines rest
  | c :: rest => c :: translateNewlines rest

/-- Python `readlines()` on the translated stream: split into lines after
each newline, keeping the newline; a final segment without a newline is kept
as well. -/
def splitLinesKeep : List Char → List (List Char)
  | [] => []
  | c :: cs =>
    if c = '\n' then [c] :: splitLinesKeep cs
    else
      match splitLinesKeep cs with
      | [] => [[c]]
      | l :: ls => (c :: l) :: ls

/-- The whitespace characters stripped by Python `str.rstrip()` (ASCII
range). -/
def isPyWS (c : Char) : Bool :=
  c = ' ' || c = '\t' || c = '\n' || c = '\r' || c = '\x0b' || c = '\x0c'

/-- Python `str.rstrip()`: remove all trailing whitespace. -/
def rstrip (l : List Char) : List Char :=
  (l.reverse.dropWhile isPyWS).reverse

/-- Whether a string ends in a whitespace character. -/
def endsInWS (l : List Char) : Bool :=
  match l.reverse with
  | [] => false
  | c :: _ => isPyWS c

/-- The text written for one input file by the text branch of `copy_files`:
`wfile.writelines(modifier(l.rstrip()) + "\n" for l in rfile.readlines())`
over the universal-newline stream of the input. -/
def copyTextContent (modifier : List Char → List Char) (input : List Char) :
    List Char :=
  ((splitLinesKeep (translateNewlines input)).map
    (fun l => modifier (rstrip l) ++ ['\n'])).flatten

/-- The lines of a written output text: split at newline characters, with
the newline characters dropped. -/
def splitNl : List Char → List (List Char)
  | [] => [[]]
  | c :: cs =>
    if c = '\n' then [] :: splitNl cs
    else
      match splitNl cs with
      | [] => [[c]]
      | l :: ls => (c :: l) :: ls

/-! ### Facts about the text pipeline -/

theorem dropWhile_head_not (p : α → Bool) :
    ∀ (l : List α) (c : α) (cs : List α), l.dropWhile p = c :: cs → p c = false
  | [], c, cs, h => by simp [List.dropWhile] at h
  | a :: as, c, cs, h => by
    by_cases ha : p a = true
    · rw [List.dropWhile_cons_of_pos ha] at h
      exact dropWhile_head_not p as c cs h
    · rw [List.dropWhile_cons_of_neg ha] at h
      cases h
      simpa using ha

/-- The result of `rstrip` never ends in whitespace. -/
theorem endsInWS_rstrip (l : List Char) : endsInWS (rstrip l) = false := by
  rw [endsInWS, rstrip, List.reverse_reverse]
  cases hd : l.reverse.dropWhile isPyWS with
  | nil => rfl
  | cons c cs => exact dropWhile_head_not isPyWS l.reverse c cs hd

/-- Every line produced by `splitLinesKeep` contains a newline at most as
its final character. -/
theorem splitLinesKeep_nl_only_last :
    ∀ (s : List Char), ∀ l ∈ splitLinesKeep s, '\n' ∉ l.dropLast
  | [], l, hl => by simp [splitLinesKeep] at hl
  | c :: cs, l, hl => by
    by_cases hc : c = '\n'
    · rw [splitLinesKeep, if_pos hc] at hl
      rcases List.mem_cons.mp hl with h | h
      · subst h; simp
      · exact splitLinesKeep_nl_only_last cs l h
    · rw [splitLinesKeep, if_neg hc] at hl
      cases hsp : splitLinesKeep cs with
      | nil =>
        rw [hsp] at hl
        rcases List.mem_singleton.mp hl with rfl
        simp
      | cons t ts =>
        rw [hsp] at hl
        rcases List.mem_cons.mp hl with h | h
        · subst h
          cases t with
          | nil => simp
          | cons b bs =>
            rw [List.dropLast_cons₂]
            intro hmem
            rcases List.mem_cons.mp hmem with h2 | h2
            · exact hc h2.symm
            · have ht := splitLinesKeep_nl_only_last cs (b :: bs)
                (hsp ▸ List.mem_cons_self (b :: bs) ts)
              exact ht h2
        · exact splitLinesKeep_nl_only_last cs l
            (hsp ▸ List.mem_cons_of_mem t h)

/-- `rstrip` of a string whose interior is newline-free is newline-free. -/
theorem rstrip_nl_free (l : List Char) (h : '\n' ∉ l.dropLast) :
    '\n' ∉ rstrip l := by
  intro hmem
  have hsplit : l.reverse.takeWhile isPyWS ++ l.reverse.dropWhile isPyWS =
      l.reverse := List.takeWhile_append_dropWhile isPyWS l.reverse
  have hl : l = rstrip l ++ (l.reverse.takeWhile isPyWS).reverse := by
    have := congrArg List.reverse hsplit
    rw [List.reverse_append, List.reverse_reverse] at this
    rw [rstrip]
    exact this.symm
  by_cases hws : (l.reverse.takeWhile isPyWS).reverse = []
  · rw [hws, List.append_nil] at hl
    have hne : rstrip l ≠ [] := fun h0 => by
      rw [h0] at hmem
      simp at hmem
    have hdecomp := List.dropLast_append_getLast hne
    rcases (List.mem_append.mp (hdecomp ▸ hmem)) with h2 | h2
    · rw [hl] at h
      exact h h2
    · have hlast : (rstrip l).getLast hne = '\n' :=
        (List.mem_singleton.mp h2).symm
      have hws2 := endsInWS_rstrip l
      rw [endsInWS] at hws2
      have hrev : (rstrip l).reverse =
          (rstrip l).getLast hne :: (rstrip l).dropLast.reverse := by
        conv in rstrip l => rw [← List.dropLast_append_getLast hne]
        rw [List.reverse_append]
        rfl
      rw [hrev, hlast] at hws2
      simp [isPyWS] at hws2
  · have : l.dropLast = rstrip l ++ (l.reverse.takeWhile isPyWS).reverse.dropLast := by
      conv in l.dropLast => rw [hl]
      exact List.dropLast_append_of_ne_nil (rstrip l) hws
    exact h (this ▸ List.mem_append_left _ hmem)

/-- Splitting at newlines recovers the lines written with a single trailing
newline each, when the lines themselves are newline-free. -/
theorem splitNl_line (rest : List Char) :
    ∀ (l : List Char), '\n' ∉ l →
      splitNl (l ++ '\n' :: rest) = l :: splitNl rest
  | [], _ => by
    rw [List.nil_append, splitNl, if_pos rfl]
  | c :: l, h => by
    have hc : ¬ c = '\n' := fun hq => h (hq ▸ List.mem_cons_self c l)
    have hl : '\n' ∉ l := fun hq => h (List.mem_cons_of_mem c hq)
    rw [List.cons_append, splitNl, if_neg hc, splitNl_line rest l hl]

theorem splitNl_flatten :
    ∀ (ls : List (List Char)), (∀ l ∈ ls, '\n' ∉ l) →
      splitNl ((ls.map (fun l => l ++ ['\n'])).flatten) = ls ++ [[]]
  | [], _ => by simp [splitNl]
  | l :: ls, h => by
    rw [List.map_cons, List.flatten_cons]
    have hl2 : l ++ ['\n'] ++ (ls.map (fun t => t ++ ['\n'])).flatten =
        l ++ '\n' :: (ls.map (fun t => t ++ ['\n'])).flatten := by
      simp
    rw [hl2, splitNl_line _ l (h l (List.mem_cons_self l ls)),
      splitNl_flatten ls (fun t ht => h t (List.mem_cons_of_mem l ht))]
    rfl

/-! ## Commit recorder (`commit`) -/

/-- The label computation of `commit`: `if tag is None: tag = "latest"`,
then `if tag[0].isdigit(): tag = "v" + tag` — where `tag[0]` raises an
`IndexError` when the tag is the empty string. -/
def commitLabel (tag : Option String) : Except PyError String :=
  match (tag.getD ("latest")).data with
  | [] => Except.error PyError.indexError
  | c :: _ =>
    if c.isDigit then Except.ok (("v") ++ tag.getD ("latest"))
    else Except.ok (tag.getD ("latest"))

/-- The commit message `"Update to {tag}"` built from the label. -/
def commitMessage (tag : Option String) : Except PyError String :=
  match commitLabel tag with
  | Except.ok t => Except.ok (("Update to ") ++ t)
  | Except.error e => Except.error e

/-- `commit`: after staging, create a commit with the formatted message only
when `git diff-index --quiet HEAD` exits non-zero (the staged tree differs
from the last commit). Returns the message of the created commit, or `none`
when no commit is made. -/
def commit (treeDiffers : Bool) (tag : Option String) :
    Except PyError (Option String) :=
  if treeDiffers then
    match commitMessage tag with
    | Except.ok m => Except.ok (some m)
    | Except.error e => Except.error e
  else
    Except.ok none

theorem commitMessage_of_data_cons (t : String) (c : Char) (cs : List Char)
    (hdata : t.data = c :: cs) :
    commitMessage (some t) = Except.ok (("Update to ") ++
      (if c.isDigit then ("v") ++ t else t)) := by
  rw [commitMessage, commitLabel]
  simp only [Option.getD_some]
  rw [hdata]
  cases hdig : c.isDigit <;> simp [hdig]

/-! ## Key replacement (`replace_key`)

The source substitutes, with `re.sub` under `DOTALL`, every leftmost-lazy
span reaching from an opening marker of the key to the next closing marker
by: the opening marker, a newline, the content, a newline, the closing
marker. The embedding models this matching for literal keys (keys without
regular-expression metacharacters, as in the source's own usage). -/

/-- The opening marker of a key: `<!--`, the key, `-->`. -/
def openMarker (key : String) : List Char :=
  ("<!--").data ++ key.data ++ ("-->").data

/-- The closing marker of a key: `<!--`, a slash, the key, `-->`. -/
def closeMarker (key : String) : List Char :=
  ("<!--/").data ++ key.data ++ ("-->").data

/-- Split a string at the leftmost occurrence of `pat`:
`some (pre, post)` with `s = pre ++ pat ++ post` and `pre` shortest, `none`
when `pat` does not occur in `s`. -/
def splitAtSub (pat : List Char) : List Char → Option (List Char × List Char)
  | [] => if pat = [] then some ([], []) else none
  | c :: cs =>
    if pat.isPrefixOf (c :: cs) then some ([], (c :: cs).drop pat.length)
    else
      match splitAtSub pat cs with
      | some (pre, post) => some (c :: pre, post)
      | none => none

theorem splitAtSub_eq_append (pat : List Char) :
    ∀ (s pre post : List Char), splitAtSub pat s = some (pre, post) →
      s = pre ++ pat ++ post
  | [], pre, post, h => by
    rw [splitAtSub] at h
    by_cases hp : pat = []
    · rw [if_pos hp] at h
      injection h with h2
      rw [Prod.mk.injEq] at h2
      rcases h2 with ⟨h2a, h2b⟩
      rw [← h2a, ← h2b, hp]
      rfl
    · rw [if_neg hp] at h
      exact Option.noConfusion h
  | c :: cs, pre, post, h => by
    rw [splitAtSub] at h
    by_cases hp : pat.isPrefixOf (c :: cs) = true
    · rw [if_pos hp] at h
      injection h with h2
      rw [Prod.mk.injEq] at h2
      rcases h2 with ⟨h2a, h2b⟩
      obtain ⟨t, ht⟩ := List.isPrefixOf_iff_prefix.mp hp
      have hdrop : (c :: cs).drop pat.length = t := by
        rw [← ht, List.drop_left]
      rw [← h2a, ← h2b, hdrop, List.nil_append, ht]
    · rw [if_neg hp] at h
      cases hrec : splitAtSub pat cs with
      | none =>
        rw [hrec] at h
        exact Option.noConfusion h
      | some pr =>
        rcases pr with ⟨pre2, post2⟩
        rw [hrec] at h
        injection h with h2
        rw [Prod.mk.injEq] at h2
        rcases h2 with ⟨h2a, h2b⟩
        have hcs := splitAtSub_eq_append pat cs pre2 post2 hrec
        rw [← h2a, ← h2b, List.cons_append, List.cons_append, ← hcs]

theorem splitAtSub_min (pat : List Char) :
    ∀ (s pre post : List Char), splitAtSub pat s = some (pre, post) →
      ∀ i < pre.length, ¬ pat <+: s.drop i
  | [], pre, post, h => by
    rw [splitAtSub] at h
    by_cases hp : pat = []
    · rw [if_pos hp] at h
      injection h with h2
      rw [Prod.mk.injEq] at h2
      rcases h2 with ⟨h2a, _⟩
      intro i hi
      rw [← h2a] at hi
      simp at hi
    · rw [if_neg hp] at h
      exact Option.noConfusion h
  | c :: cs, pre, post, h => by
    rw [splitAtSub] at h
    by_cases hp : pat.isPrefixOf (c :: cs) = true
    · rw [if_pos hp] at h
      injection h with h2
      rw [Prod.mk.injEq] at h2
      rcases h2 with ⟨h2a, _⟩
      intro i hi
      rw [← h2a] at hi
      simp at hi
    · rw [if_neg hp] at h
      cases hrec : splitAtSub pat cs with
      | none =>
        rw [hrec] at h
        exact Option.noConfusion h
      | some pr =>
        rcases pr with ⟨pre2, post2⟩
        rw [hrec] at h
        injection h with h2
        rw [Prod.mk.injEq] at h2
        rcases h2 with ⟨h2a, _⟩
        intro i hi
        rw [← h2a] at hi
        cases i with
        | zero =>
          intro hpref
          rw [List.drop_zero] at hpref
          exact hp (List.isPrefixOf_iff_prefix.mpr hpref)
        | succ j =>
          rw [List.drop_succ_cons]
          exact splitAtSub_min pat cs pre2 post2 hrec j
            (Nat.lt_of_succ_lt_succ (by simpa using hi))

theorem splitAtSub_complete (pat : List Char) :
    ∀ (pre post : List Char),
      (∀ i < pre.length, ¬ pat <+: (pre ++ pat ++ post).drop i) →
      splitAtSub pat (pre ++ pat ++ post) = some (pre, post)
  | [], post, _ => by
    rw [List.nil_append]
    cases hs : pat ++ post with
    | nil =>
      rcases List.append_eq_nil.mp hs with ⟨hp, hq⟩
      rw [hp, hq, splitAtSub, if_pos rfl]
    | cons c cs =>
      rw [splitAtSub]
      have hpref : pat.isPrefixOf (c :: cs) = true := by
        rw [← hs]
        exact List.isPrefixOf_iff_prefix.mpr ⟨post, rfl⟩
      rw [if_pos hpref]
      have hdrop : (c :: cs).drop pat.length = post := by
        rw [← hs, List.drop_left]
      rw [hdrop]
  | c :: pre, post, hmin => by
    have heq : (c :: pre) ++ pat ++ post = c :: (pre ++ pat ++ post) := by
      simp
    have hmin2 : ∀ i < pre.length, ¬ pat <+: (pre ++ pat ++ post).drop i := by
      intro i hi
      have h2 := hmin (i + 1) (by simpa using Nat.succ_lt_succ hi)
      rw [heq, List.drop_succ_cons] at h2
      exact h2
    have hc : ¬ pat.isPrefixOf (c :: (pre ++ pat ++ post)) = true := by
      intro hb
      have h0 := hmin 0 (by simp)
      rw [heq, List.drop_zero] at h0
      exact h0 (List.isPrefixOf_iff_prefix.mp hb)
    rw [heq, splitAtSub, if_neg hc, splitAtSub_complete pat pre post hmin2]

theorem splitAtSub_none (pat : List Char) :
    ∀ (s : List Char), (∀ i < s.length + 1, ¬ pat <+: s.drop i) →
      splitAtSub pat s = none
  | [], h => by
    have h0 := h 0 (by simp)
    rw [List.drop_zero] at h0
    have hp : ¬ pat = [] := fun hq => h0 (hq ▸ List.nil_prefix)
    rw [splitAtSub, if_neg hp]
  | c :: cs, h => by
    have hc : ¬ pat.isPrefixOf (c :: cs) = true := by
      intro hb
      have h0 := h 0 (by simp)
      rw [List.drop_zero] at h0
      exact h0 (List.isPrefixOf_iff_prefix.mp hb)
    have hcs : ∀ i < cs.length + 1, ¬ pat <+: cs.drop i := by
      intro i hi
      have h2 := h (i + 1) (by simpa using Nat.succ_lt_succ hi)
      rw [List.drop_succ_cons] at h2
      exact h2
    rw [splitAtSub, if_neg hc, splitAtSub_none pat cs hcs]

theorem openMarker_length (key : String) :
    (openMarker key).length = key.data.length + 7 := by
  rw [openMarker]
  simp only [List.length_append, List.length_cons, List.length_nil]
  omega

theorem closeMarker_length (key : String) :
    (closeMarker key).length = key.data.length + 8 := by
  rw [closeMarker]
  simp only [List.length_append, List.length_cons, List.length_nil]
  omega

/-- Result of finding one leftmost-lazy marker-pair match:
the text is `pre ++ openMarker ++ mid ++ closeMarker ++ post`. -/
structure KeyMatch where
  pre : List Char
  mid : List Char
  post : List Char

/-- Leftmost lazy match of the marker pair in `s`, as the regex engine finds
it: the first opening marker, then the first closing marker after it. (When
the first opening marker has no closing marker after it, no later opening
marker has one either, so the pattern does not match anywhere.) -/
def findOpenClose (key : String) (s : List Char) : Option KeyMatch :=
  match splitAtSub (openMarker key) s with
  | none => none
  | some (pre, rest) =>
    match splitAtSub (closeMarker key) rest with
    | none => none
    | some (mid, post) => some ⟨pre, mid, post⟩

/-- The text spliced in for one match: the opening marker, a newline, the
content, a newline, the closing marker. -/
def replacementSpan (key content : String) : List Char :=
  openMarker key ++ '\n' :: content.data ++ '\n' :: closeMarker key

/-- Global substitution as `re.sub` performs it: replace the leftmost match
and continue scanning after it (the spliced replacement is not rescanned).
`fuel` bounds the number of replacements; every match consumes at least the
non-empty closing marker, so running with fuel `s.length` performs every
replacement (`replaceKeyFuel_irrel` below shows the result is the same for
any fuel of at least `s.length`). -/
def replaceKeyFuel (key content : String) : Nat → List Char → List Char
  | 0, s => s
  | fuel + 1, s =>
    match findOpenClose key s with
    | none => s
    | some r => r.pre ++ replacementSpan key content ++
        replaceKeyFuel key content fuel r.post

/-- `replace_key`: substitute every leftmost-lazy marker-pair span of `key`
in `text` by the replacement span around `content`. -/
def replace_key (text key content : String) : String :=
  String.mk (replaceKeyFuel key content text.data.length text.data)

theorem findOpenClose_eq_some (key : String) (s pre rest mid post : List Char)
    (h1 : splitAtSub (openMarker key) s = some (pre, rest))
    (h2 : splitAtSub (closeMarker key) rest = some (mid, post)) :
    findOpenClose key s = some ⟨pre, mid, post⟩ := by
  have hstep : findOpenClose key s =
      match splitAtSub (closeMarker key) rest with
      | none => none
      | some (mid, post) => some ⟨pre, mid, post⟩ := by
    rw [findOpenClose, h1]
  rw [hstep, h2]

theorem findOpenClose_eq_none_left (key : String) (s : List Char)
    (h1 : splitAtSub (openMarker key) s = none) :
    findOpenClose key s = none := by
  rw [findOpenClose, h1]

theorem findOpenClose_eq_none_right (key : String) (s pre rest : List Char)
    (h1 : splitAtSub (openMarker key) s = some (pre, rest))
    (h2 : splitAtSub (closeMarker key) rest = none) :
    findOpenClose key s = none := by
  have hstep : findOpenClose key s =
      match splitAtSub (closeMarker key) rest with
      | none => none
      | some (mid, post) => some ⟨pre, mid, post⟩ := by
    rw [findOpenClose, h1]
  rw [hstep, h2]

theorem findOpenClose_post_lt (key : String) (s : List Char) (r : KeyMatch)
    (h : findOpenClose key s = some r) : r.post.length < s.length := by
  cases h1 : splitAtSub (openMarker key) s with
  | none =>
    rw [findOpenClose_eq_none_left key s h1] at h
    exact Option.noConfusion h
  | some pr =>
    rcases pr with ⟨pre, rest⟩
    cases h2 : splitAtSub (closeMarker key) rest with
    | none =>
      rw [findOpenClose_eq_none_right key s pre rest h1 h2] at h
      exact Option.noConfusion h
    | some pr2 =>
      rcases pr2 with ⟨mid, post⟩
      rw [findOpenClose_eq_some key s pre rest mid post h1 h2] at h
      injection h with h3
      rw [← h3]
      have e1 := splitAtSub_eq_append _ s pre rest h1
      have e2 := splitAtSub_eq_append _ rest mid post h2
      have hcl := closeMarker_length key
      rw [e1, e2]
      simp only [List.length_append]
      omega

theorem findOpenClose_nil (key : String) : findOpenClose key [] = none := by
  have hne : ¬ openMarker key = [] := by
    intro h0
    have := congrArg List.length h0
    rw [openMarker_length key] at this
    simp at this
  rw [findOpenClose, splitAtSub, if_neg hne]

theorem replaceKeyFuel_of_none (key content : String) (s : List Char)
    (h : findOpenClose key s = none) :
    ∀ fuel, replaceKeyFuel key content fuel s = s
  | 0 => rfl
  | fuel + 1 => by
    simp only [replaceKeyFuel, h]

/-- Any fuel of at least the text length yields the same substitution
result: the fuel bound in `replace_key` is immaterial. -/
theorem replaceKeyFuel_irrel (key content : String) :
    ∀ (f1 : Nat) (s : List Char) (f2 : Nat), s.length ≤ f1 → s.length ≤ f2 →
      replaceKeyFuel key content f1 s = replaceKeyFuel key content f2 s
  | 0, s, f2, h1, _ => by
    have hs : s = [] := List.length_eq_zero.mp (Nat.le_zero.mp h1)
    subst hs
    rw [replaceKeyFuel_of_none key content [] (findOpenClose_nil key) f2]
    rfl
  | f1 + 1, s, f2, h1, h2 => by
    cases hf : findOpenClose key s with
    | none =>
      rw [replaceKeyFuel_of_none key content s hf, replaceKeyFuel_of_none key content s hf]
    | some r =>
      cases f2 with
      | zero =>
        have hs : s = [] := List.length_eq_zero.mp (Nat.le_zero.mp h2)
        subst hs
        rw [findOpenClose_nil key] at hf
        exact Option.noConfusion hf
      | succ f2 =>
        have hlt := findOpenClose_post_lt key s r hf
        simp only [replaceKeyFuel, hf]
        rw [replaceKeyFuel_irrel key content f1 r.post f2 (by omega) (by omega)]

/-! ## Claims about the version resolver -/

/-- C1: for every non-empty list of tag names, the fallback tag resolver in
`latest_release_tag` returns a tag of the list whose sequence of embedded
maximal digit runs, read as integers, is lexicographically greatest among all
the tags; in particular on `["v1.2.0", "v1.10.0", "v1.9.3"]` it returns
`"v1.10.0"`. -/
theorem C1_fallback_returns_greatest_numeric_tag (tags : List String)
    (h : tags ≠ []) :
    (∃ t, fallbackTag tags = Except.ok t ∧ t ∈ tags ∧
      ∀ u ∈ tags, tupleLe (digitRuns u) (digitRuns t) = true) ∧
    fallbackTag ["v1.2.0", "v1.10.0", "v1.9.3"] = Except.ok ("v1.10.0") :=
  ⟨fallbackTag_spec tags h, rfl⟩

/-- Witness for C1 at the concrete list of the claim. -/
theorem C1_witness :
    ∃ t, fallbackTag ["v1.2.0", "v1.10.0", "v1.9.3"] = Except.ok t ∧
      t ∈ ["v1.2.0", "v1.10.0", "v1.9.3"] ∧
      ∀ u ∈ ["v1.2.0", "v1.10.0", "v1.9.3"],
        tupleLe (digitRuns u) (digitRuns t) = true :=
  (C1_fallback_returns_greatest_numeric_tag ["v1.2.0", "v1.10.0", "v1.9.3"]
    (by decide)).1

/-- C2 counterexample: an HTTP error with status 403 — not a "not found"
response — from the latest-release endpoint does not propagate: the resolver
still falls back to the tag listing and returns a tag, contradicting the
claim that only "not found" avoids raising. -/
theorem C2_counterexample_non_404_http_error_still_falls_back :
    latest_release_tag (ReleaseResponse.httpError 403) ["1.0"] =
      Except.ok ("1.0") ∧ (403 : Nat) ≠ 404 :=
  ⟨rfl, by decide⟩

/-- C2 (amended): `latest_release_tag` falls back to the tag-listing path
without raising exactly when the latest-release endpoint fails with an HTTP
protocol error — of any status code, "not found" included; any non-HTTP
error from that endpoint propagates unhandled and is fatal. -/
theorem C2_fallback_on_any_http_error_others_propagate
    (resp : ReleaseResponse) (tags : List String) (h : tags ≠ []) :
    (∀ code, resp = ReleaseResponse.httpError code →
      ∃ t, latest_release_tag resp tags = Except.ok t ∧ t ∈ tags) ∧
    (∀ m, resp = ReleaseResponse.otherError m →
      latest_release_tag resp tags = Except.error (PyError.urlError m)) := by
  constructor
  · rintro code rfl
    rcases fallbackTag_spec tags h with ⟨t, ht, hmem, _⟩
    exact ⟨t, ht, hmem⟩
  · rintro m rfl
    rfl

/-- Witness for the amended C2 at a concrete non-404 HTTP failure. -/
theorem C2_witness :
    ∃ t, latest_release_tag (ReleaseResponse.httpError 500) ["2.0", "1.0"] =
      Except.ok t ∧ t ∈ [("2.0" : String), "1.0"] :=
  (C2_fallback_on_any_http_error_others_propagate
    (ReleaseResponse.httpError 500) ["2.0", "1.0"] (by decide)).1 500 rfl

/-- C9: when the latest-release endpoint reports no release (an HTTP error)
and the repository has zero tags, `latest_release_tag` fails with an
out-of-range (IndexError) failure rather than returning a tag. -/
theorem C9_empty_tag_list_is_out_of_range_failure (code : Nat) :
    latest_release_tag (ReleaseResponse.httpError code) [] =
      Except.error PyError.indexError :=
  rfl

/-! ## Claims about the file copier -/

/-- C4 counterexample: with no destination root, a file matched under source
root `widgets_src` is written at the single-component path `a.h` directly in
the current directory — a one-component path is under no destination root
directory at all, in particular not under a directory derived from the
source root's name. -/
theorem C4_counterexample_no_default_destination_root :
    copyFilesPaths ["widgets_src"] [⟨["widgets_src", "a.h"], true⟩] none =
      [["a.h"]] ∧ (["a.h"] : FsPath).length = 1 :=
  ⟨rfl, rfl⟩

/-- C4 (amended): when `copy_files` is called with no destination root, each
matched file is written at its source-root-relative path in the current
directory: prefixing the written path with the source root gives back
exactly the matched source path, so no destination-root directory is
interposed. -/
theorem C4_no_dest_root_writes_source_relative_paths (src : FsPath)
    (ms : List GlobEntry) (h : ∀ e ∈ ms, src <+: e.path) :
    ∀ p ∈ copyFilesPaths src ms none,
      ∃ e ∈ ms, e.isFile = true ∧ src ++ p = e.path := by
  intro p hp
  rcases List.mem_map.mp hp with ⟨e, he, hpe⟩
  have hmem : e ∈ ms := List.mem_of_mem_filter he
  have hfile : e.isFile = true := by
    have := List.of_mem_filter he
    simpa using this
  refine ⟨e, hmem, hfile, ?_⟩
  rcases h e hmem with ⟨t, ht⟩
  subst hpe
  simp only [destFor, relative_to]
  rw [← ht, List.drop_left]

/-- Witness for the amended C4 at a concrete match. -/
theorem C4_witness :
    ∃ e ∈ [(⟨["widgets_src", "a.h"], true⟩ : GlobEntry)], e.isFile = true ∧
      ["widgets_src"] ++ ["a.h"] = e.path :=
  C4_no_dest_root_writes_source_relative_paths ["widgets_src"]
    [⟨["widgets_src", "a.h"], true⟩] (by decide) ["a.h"] (by decide)

/-- C5: `copy_files` fails with the `"No files copied!"` assertion exactly
when no regular file matches any supplied pattern, and whenever it returns,
the returned list of written destination paths is non-empty. -/
theorem C5_returns_nonempty_or_asserts (src : FsPath)
    (ms : List GlobEntry) (dest : Option FsPath) :
    (copyFilesResult src ms dest = Except.error ("No files copied!") ↔
      ∀ e ∈ ms, e.isFile = false) ∧
    ∀ l, copyFilesResult src ms dest = Except.ok l → l ≠ [] := by
  have hempty : copyFilesPaths src ms dest = [] ↔
      ∀ e ∈ ms, e.isFile = false := by
    rw [copyFilesPaths, List.map_eq_nil_iff, List.filter_eq_nil_iff]
    simp
  constructor
  · rw [copyFilesResult]
    by_cases hc : copyFilesPaths src ms dest = []
    · rw [if_pos hc]
      exact iff_of_true rfl (hempty.mp hc)
    · rw [if_neg hc]
      exact iff_of_false (fun hco => Except.noConfusion hco)
        (fun hall => hc (hempty.mpr hall))
  · intro l hl
    rw [copyFilesResult] at hl
    by_cases hc : copyFilesPaths src ms dest = []
    · rw [if_pos hc] at hl
      exact Except.noConfusion hl
    · rw [if_neg hc] at hl
      have h2 : copyFilesPaths src ms dest = l := by
        injection hl
      rw [← h2]
      exact hc

/-- Witness for C5: a single directory-only match trips the assertion. -/
theorem C5_witness :
    copyFilesResult ["s"] [(⟨["s", "d"], false⟩ : GlobEntry)] none =
      Except.error ("No files copied!") :=
  (C5_returns_nonempty_or_asserts ["s"] [⟨["s", "d"], false⟩] none).1.mpr
    (by decide)

/-- C6: with delete requested and no destination root, the pre-clean step
removes exactly those top-level path components of the current directory
that contain a glob match for some supplied pattern; every other top-level
name of the current directory survives. -/
theorem C6_preclean_removes_exactly_matched_top_levels
    (cwdTops : List String) (cwdMatches : List FsPath) (x : String) :
    x ∈ preCleanTopLevel cwdTops cwdMatches ↔
      x ∈ cwdTops ∧ ∀ f ∈ cwdMatches, topComponent f ≠ x := by
  rw [preCleanTopLevel, mem_foldl_filter_ne]
  rw [deleteTops, List.mem_dedup, List.mem_map]
  constructor
  · rintro ⟨hin, hno⟩
    exact ⟨hin, fun f hf heq => hno ⟨f, hf, heq⟩⟩
  · rintro ⟨hin, hall⟩
    exact ⟨hin, fun hex => by rcases hex with ⟨f, hf, hfx⟩; exact hall f hf hfx⟩

/-! ## Claims about text-mode copying -/

/-- C3 counterexample: the stripping happens before the per-line
transformation, so a transformation that appends a space produces an output
line that ends in whitespace — the input `"a"` with that transformation is
written as `"a \n"`, whose (only) line ends in a space. -/
theorem C3_counterexample_transform_can_reintroduce_whitespace :
    copyTextContent (fun l => l ++ [' ']) ['a'] = ['a', ' ', '\n'] ∧
    endsInWS ((splitNl (copyTextContent (fun l => l ++ [' ']) ['a'])).headD [])
      = true :=
  ⟨rfl, rfl⟩

/-- C3 (amended): for every file copied in text mode and every line-ending
convention of the input, each input line is stripped of trailing whitespace,
then passed through the optional per-line transformation, then written with
exactly one terminating newline: splitting the written output at newlines
recovers exactly the transformed stripped lines (plus the empty remainder
after the final newline). Provided the transformation introduces no trailing
whitespace and no newline characters — in particular for the default
identity transformation — no output line ends in whitespace. -/
theorem C3_text_lines_stripped_transformed_newline_terminated
    (m : List Char → List Char)
    (hmws : ∀ l, endsInWS l = false → endsInWS (m l) = false)
    (hmnl : ∀ l, '\n' ∉ l → '\n' ∉ m l)
    (input : List Char) :
    splitNl (copyTextContent m input) =
      ((splitLinesKeep (translateNewlines input)).map (fun l => m (rstrip l)))
        ++ [[]] ∧
    ∀ line ∈ (splitLinesKeep (translateNewlines input)).map
        (fun l => m (rstrip l)),
      '\n' ∉ line ∧ endsInWS line = false := by
  have hfree : ∀ line ∈ (splitLinesKeep (translateNewlines input)).map
      (fun l => m (rstrip l)), '\n' ∉ line ∧ endsInWS line = false := by
    intro line hline
    rcases List.mem_map.mp hline with ⟨l, hl, hml⟩
    have h1 : '\n' ∉ rstrip l :=
      rstrip_nl_free l (splitLinesKeep_nl_only_last (translateNewlines input) l hl)
    have h2 : endsInWS (rstrip l) = false := endsInWS_rstrip l
    exact hml ▸ ⟨hmnl (rstrip l) h1, hmws (rstrip l) h2⟩
  refine ⟨?_, hfree⟩
  rw [copyTextContent]
  have hmm : (splitLinesKeep (translateNewlines input)).map
      (fun l => m (rstrip l) ++ ['\n']) =
      ((splitLinesKeep (translateNewlines input)).map
        (fun l => m (rstrip l))).map (fun t => t ++ ['\n']) := by
    rw [List.map_map]
    rfl
  rw [hmm]
  exact splitNl_flatten _ (fun t ht => (hfree t ht).1)

/-- Witness for the amended C3: mixed CRLF/LF input with trailing blanks,
identity transformation. -/
theorem C3_witness :
    splitNl (copyTextContent (fun l => l) ("a \r\nb\t\nc").data) =
      [("a").data, ("b").data, ("c").data, []] := by
  have h := (C3_text_lines_stripped_transformed_newline_terminated
    (fun l => l) (fun _ hh => hh) (fun _ hh => hh) ("a \r\nb\t\nc").data).1
  rw [h]
  rfl

/-! ## Claims about the commit recorder -/

/-- C7: every commit created by `commit` carries the message
`"Update to {label}"` where the label is the literal `"latest"` when no tag
was supplied, and is the tag — prefixed with `"v"` exactly when its first
character is a digit — otherwise; in particular tag `"2.3.1"` yields
`"Update to v2.3.1"`. -/
theorem C7_commit_message_format (d : Bool) (tag : Option String)
    (msg : String) (h : commit d tag = Except.ok (some msg)) :
    (tag = none → msg = ("Update to latest")) ∧
    (∀ t c cs, tag = some t → t.data = c :: cs →
      msg = ("Update to ") ++ (if c.isDigit then ("v") ++ t else t)) ∧
    commit true (some ("2.3.1")) = Except.ok (some ("Update to v2.3.1")) := by
  refine ⟨?_, ?_, rfl⟩
  · rintro rfl
    cases d
    · simp [commit] at h
    · have h2 : commit true none = Except.ok (some ("Update to latest")) := rfl
      rw [h2] at h
      injection h with h3
      injection h3 with h4
      exact h4.symm
  · rintro t c cs rfl hdata
    cases d
    · simp [commit] at h
    · rw [commit, if_pos rfl, commitMessage_of_data_cons t c cs hdata] at h
      injection h with h3
      injection h3 with h4
      exact h4.symm

/-- Witness for C7 at tag `"2.3.1"`. -/
theorem C7_witness :
    ("Update to v2.3.1" : String) = ("Update to ") ++
      (if ('2').isDigit then ("v") ++ ("2.3.1") else ("2.3.1")) :=
  (C7_commit_message_format true (some ("2.3.1")) ("Update to v2.3.1")
    rfl).2.1 ("2.3.1") '2' (".3.1").data rfl rfl

/-- C10: calling `commit` with a non-None empty-string tag while the staged
tree differs from the last commit fails with an out-of-range (IndexError)
failure while formatting the message, so no commit is created; with any
non-empty tag, the tag-supplied path of `commit` returns normally. -/
theorem C10_empty_tag_is_index_error_nonempty_safe :
    commit true (some ("")) = Except.error PyError.indexError ∧
    (∀ (d : Bool) (t : String), t ≠ ("") →
      ∃ m, commit d (some t) = Except.ok m) := by
  constructor
  · rfl
  · intro d t ht
    cases d
    · exact ⟨none, rfl⟩
    · cases hdata : t.data with
      | nil =>
        exfalso
        apply ht
        cases t with
        | mk l =>
          simp only [String.data] at hdata
          rw [hdata]
      | cons c cs =>
        refine ⟨some (("Update to ") ++ (if c.isDigit then ("v") ++ t else t)), ?_⟩
        rw [commit, if_pos rfl, commitMessage_of_data_cons t c cs hdata]

/-- Witness for C10: the non-empty tag `"v1"` commits normally. -/
theorem C10_witness :
    ∃ m, commit true (some ("v1")) = Except.ok m :=
  C10_empty_tag_is_index_error_nonempty_safe.2 true ("v1") (by decide)

/-! ## Claim about key replacement -/

/-- C8: `replace_key` replaces the span between a matching pair of markers
of `key` — the first opening marker of the text and the first closing marker
after it — by the given content (set off by the markers on their own lines),
even when the content spans multiple lines, and leaves everything before and
after that span — in particular the markers and enclosed content of every
other, unrelated key — byte-for-byte unchanged; a text containing no opening
marker of `key` is returned entirely unchanged. -/
theorem C8_replace_key_between_markers (key content : String)
    (pre mid post : List Char)
    (hpre : ∀ i < pre.length, ¬ openMarker key <+:
      (pre ++ openMarker key ++ mid ++ closeMarker key ++ post).drop i)
    (hmid : ∀ i < mid.length, ¬ closeMarker key <+:
      (mid ++ closeMarker key ++ post).drop i)
    (hpost : ∀ i < post.length + 1, ¬ openMarker key <+: post.drop i) :
    replace_key
        (String.mk (pre ++ openMarker key ++ mid ++ closeMarker key ++ post))
        key content =
      String.mk (pre ++ openMarker key ++ '\n' :: content.data ++
        '\n' :: closeMarker key ++ post) ∧
    ∀ s : List Char, (∀ i < s.length + 1, ¬ openMarker key <+: s.drop i) →
      replace_key (String.mk s) key content = String.mk s := by
  constructor
  · have hs : pre ++ openMarker key ++ mid ++ closeMarker key ++ post =
        pre ++ openMarker key ++ (mid ++ closeMarker key ++ post) := by
      simp [List.append_assoc]
    have h1 : splitAtSub (openMarker key)
        (pre ++ openMarker key ++ mid ++ closeMarker key ++ post) =
        some (pre, mid ++ closeMarker key ++ post) := by
      rw [hs]
      exact splitAtSub_complete _ pre _ (by rw [← hs]; exact hpre)
    have h2 : splitAtSub (closeMarker key) (mid ++ closeMarker key ++ post) =
        some (mid, post) :=
      splitAtSub_complete _ mid post hmid
    have hfoc := findOpenClose_eq_some key
      (pre ++ openMarker key ++ mid ++ closeMarker key ++ post)
      pre (mid ++ closeMarker key ++ post) mid post h1 h2
    have hnopost : findOpenClose key post = none :=
      findOpenClose_eq_none_left key post (splitAtSub_none _ post hpost)
    show String.mk (replaceKeyFuel key content
        (pre ++ openMarker key ++ mid ++ closeMarker key ++ post).length
        (pre ++ openMarker key ++ mid ++ closeMarker key ++ post)) = _
    have hlen : 1 ≤
        (pre ++ openMarker key ++ mid ++ closeMarker key ++ post).length := by
      have ho := openMarker_length key
      simp only [List.length_append]
      omega
    cases hn : (pre ++ openMarker key ++ mid ++ closeMarker key ++ post).length
      with
    | zero => omega
    | succ n =>
      simp only [replaceKeyFuel, hfoc]
      rw [replaceKeyFuel_of_none key content post hnopost n]
      simp [replacementSpan]
  · intro s hsno
    have hnone : findOpenClose key s = none :=
      findOpenClose_eq_none_left key s (splitAtSub_none _ s hsno)
    show String.mk (replaceKeyFuel key content s.length s) = String.mk s
    rw [replaceKeyFuel_of_none key content s hnone]

/-- Witness for C8: multi-line content, an unrelated marker pair before the
matched span and trailing text after it. -/
theorem C8_witness :
    replace_key (String.mk (("<!--a-->x<!--/a-->\n").data ++ openMarker ("k")
        ++ ("old").data ++ closeMarker ("k") ++ ("\ntail").data))
        ("k") ("new\nline") =
      String.mk (("<!--a-->x<!--/a-->\n").data ++ openMarker ("k") ++
        '\n' :: ("new\nline").data ++ '\n' :: closeMarker ("k") ++
        ("\ntail").data) :=
  (C8_replace_key_between_markers ("k") ("new\nline") _ _ _
    (by decide) (by decide) (by decide)).1

end VendorTool
